import Mathlib

/-!
Verification of the portable event multiplexer (`fi_epoll_*`) and the
capability-direction resolver (`fi_*_allowed`) from `src/common.c` of the
libfabric portability layer, via a shallow embedding in Lean 4.
-/

set_option maxHeartbeats 1000000
set_option maxRecDepth 100000

namespace LibfabricCommon

/-! ## Capability direction resolver

The C functions test individual capability bits of a `uint64_t caps` mask
(`caps & FI_MSG`, `caps & FI_TAGGED`, ...).  The ten flags are independent
bits, so the mask is embedded as a record of ten Booleans; `caps & FLAG`
becomes the corresponding field. -/

structure Caps where
  msg : Bool
  tagged : Bool
  rma : Bool
  atomics : Bool
  send : Bool
  recv : Bool
  write : Bool
  read : Bool
  remote_write : Bool
  remote_read : Bool
deriving DecidableEq

/-- Embedding of `fi_send_allowed` from `src/common.c`. -/
def fi_send_allowed (caps : Caps) : Bool :=
  if caps.msg || caps.tagged then
    if caps.send then true
    else if caps.recv then false
    else true
  else false

/-- Embedding of `fi_recv_allowed` from `src/common.c`. -/
def fi_recv_allowed (caps : Caps) : Bool :=
  if caps.msg || caps.tagged then
    if caps.recv then true
    else if caps.send then false
    else true
  else false

/-- Embedding of `fi_rma_initiate_allowed` from `src/common.c`. -/
def fi_rma_initiate_allowed (caps : Caps) : Bool :=
  if caps.rma || caps.atomics then
    if caps.write || caps.read then true
    else if caps.remote_write || caps.remote_read then false
    else true
  else false

/-- Embedding of `fi_rma_target_allowed` from `src/common.c`. -/
def fi_rma_target_allowed (caps : Caps) : Bool :=
  if caps.rma || caps.atomics then
    if caps.remote_write || caps.remote_read then true
    else if caps.write || caps.read then false
    else true
  else false

/-- The three-way default-resolution cascade as the spec words it:
no base transfer class ⇒ false; own directional flag present ⇒ true;
otherwise opposite flag present ⇒ false; otherwise ⇒ true. -/
def resolveSpec (base own opposite : Bool) : Bool :=
  if !base then false
  else if own then true
  else if opposite then false
  else true

/-- The all-clear capability mask (no bit set). -/
def emptyCaps : Caps :=
  ⟨false, false, false, false, false, false, false, false, false, false⟩

/-! ## Event multiplexer (fallback `fi_epoll`)

The handle is `struct fi_epoll` with fields `size` (capacity), `nfds`
(occupied count), `fds` (array of `struct pollfd`), `context` (parallel
array of opaque tokens) and `index` (rotating scan cursor), exactly the
fields `src/common.c` reads and writes.  Arrays are embedded as lists whose
length is the allocated capacity; slots at positions `nfds` and beyond are
allocated but unoccupied (calloc fills them with zeros), matching the C
memory.  The opaque `void *context` tokens are a type parameter `Ctx`; the
zero (NULL) fill of calloc is `default`.  The underlying `poll` call is an
oracle input: its return value and the `revents` it writes into the first
`nfds` slots. -/

structure Pollfd where
  fd : Int
  events : Nat
  revents : Nat
deriving DecidableEq

/-- A zeroed `struct pollfd`, as calloc produces it. -/
def zeroPollfd : Pollfd := ⟨0, 0, 0⟩

/-- The `POLLIN` interest bit. -/
def POLLIN : Nat := 1

structure FiEpoll (Ctx : Type) where
  size : Nat
  nfds : Nat
  fds : List Pollfd
  context : List Ctx
  index : Nat
deriving DecidableEq

inductive FiErr where
  | ENOMEM
  | EINVAL
deriving DecidableEq

/-- Embedding of `fi_epoll_create`: `calloc(1, sizeof(struct fi_epoll))`
yields an all-zero handle (capacity 0, no slots, cursor 0). -/
def fi_epoll_create (Ctx : Type) : FiEpoll Ctx := ⟨0, 0, [], [], 0⟩

/-- The descriptor stored at slot `i`. -/
def fdAt {Ctx : Type} (ep : FiEpoll Ctx) (i : Nat) : Int :=
  (ep.fds.getD i zeroPollfd).fd

/-- The unconditional tail of `fi_epoll_add`: write `fd` and `POLLIN` into
slot `nfds` (leaving that slot's stale `revents` untouched, as the C code
does), store the context, and bump `nfds`. -/
def epollInsert {Ctx : Type} (ep : FiEpoll Ctx) (fd : Int) (ctx : Ctx) : FiEpoll Ctx :=
  { ep with
    fds := ep.fds.set ep.nfds
      { ep.fds.getD ep.nfds zeroPollfd with fd := fd, events := POLLIN },
    context := ep.context.set ep.nfds ctx,
    nfds := ep.nfds + 1 }

/-- Embedding of `fi_epoll_add`.  `allocOk` is the allocation oracle: when
the table is full and the growth calloc fails the function returns
`-FI_ENOMEM` before touching the handle; when it succeeds both arrays gain
64 zeroed slots (the memcpy preserves the `nfds` occupied entries) and the
new entry is inserted. -/
def fi_epoll_add {Ctx : Type} [Inhabited Ctx] (ep : FiEpoll Ctx) (fd : Int)
    (ctx : Ctx) (allocOk : Bool) : Except FiErr (FiEpoll Ctx) :=
  if ep.nfds = ep.size then
    if allocOk then
      .ok (epollInsert
        { ep with size := ep.size + 64,
                  fds := ep.fds ++ List.replicate 64 zeroPollfd,
                  context := ep.context ++ List.replicate 64 default } fd ctx)
    else .error .ENOMEM
  else .ok (epollInsert ep fd ctx)

/-- `scanIdx p lo n = some i` when `i` is the first index in
`[lo, lo + n)` satisfying `p`; the shape of the C `for` loops. -/
def scanIdx (p : Nat → Bool) : Nat → Nat → Option Nat
  | _, 0 => none
  | lo, n + 1 => if p lo then some lo else scanIdx p (lo + 1) n

/-- Embedding of `fi_epoll_del`: find the first occupied slot holding `fd`;
copy the last occupied slot's descriptor (only the `fd` field) and context
into it and shrink `nfds`; `-FI_EINVAL` when no slot matches. -/
def fi_epoll_del {Ctx : Type} [Inhabited Ctx] (ep : FiEpoll Ctx) (fd : Int) :
    Except FiErr (FiEpoll Ctx) :=
  match scanIdx (fun i => fdAt ep i == fd) 0 ep.nfds with
  | some i => .ok
      { ep with
        fds := ep.fds.set i
          { ep.fds.getD i zeroPollfd with fd := fdAt ep (ep.nfds - 1) },
        context := ep.context.set i (ep.context.getD (ep.nfds - 1) default),
        nfds := ep.nfds - 1 }
  | none => .error .EINVAL

/-- What one `poll` call writes back: it fills `revents` of the first
`nfds` entries (`r.getD i 0`, zero when it reports nothing for slot `i`)
and leaves the rest of the array alone. -/
def pollWrite : Nat → List Pollfd → List Nat → List Pollfd
  | 0, fds, _ => fds
  | _ + 1, [], _ => []
  | n + 1, p :: fds, r => { p with revents := r.headD 0 } :: pollWrite n fds r.tail

/-- Oracle description of one `poll` invocation: its return value and the
per-slot readiness it reports for the first `nfds` slots. -/
structure PollResult where
  ret : Int
  revents : List Nat
deriving DecidableEq

/-- Embedding of `fi_epoll_wait`: poll writes `revents`; a nonpositive
return yields NULL; otherwise scan `[index, nfds)` then `[0, index)` for
the first slot with nonzero `revents`, set `index` to it and return its
context; NULL if neither pass finds one. -/
def fi_epoll_wait {Ctx : Type} [Inhabited Ctx] (ep : FiEpoll Ctx)
    (pr : PollResult) : Option Ctx × FiEpoll Ctx :=
  let ep1 : FiEpoll Ctx := { ep with fds := pollWrite ep.nfds ep.fds pr.revents }
  if pr.ret ≤ 0 then (none, ep1)
  else
    match scanIdx (fun i => (ep1.fds.getD i zeroPollfd).revents != 0) ep1.index
        (ep1.nfds - ep1.index) with
    | some i => (some (ep1.context.getD i default), { ep1 with index := i })
    | none =>
      match scanIdx (fun i => (ep1.fds.getD i zeroPollfd).revents != 0) 0 ep1.index with
      | some i => (some (ep1.context.getD i default), { ep1 with index := i })
      | none => (none, ep1)

/-- One observable operation on a handle. -/
inductive Op (Ctx : Type) where
  | add (fd : Int) (ctx : Ctx) (allocOk : Bool)
  | del (fd : Int)
  | wait (pr : PollResult)

/-- Apply one operation; a failing operation leaves the handle as it was
(the C functions return the error before mutating). -/
def step {Ctx : Type} [Inhabited Ctx] (ep : FiEpoll Ctx) : Op Ctx → FiEpoll Ctx
  | .add fd ctx ok =>
    match fi_epoll_add ep fd ctx ok with
    | .ok ep1 => ep1
    | .error _ => ep
  | .del fd =>
    match fi_epoll_del ep fd with
    | .ok ep1 => ep1
    | .error _ => ep
  | .wait pr => (fi_epoll_wait ep pr).2

/-- Run a sequence of operations. -/
def run {Ctx : Type} [Inhabited Ctx] (ep : FiEpoll Ctx) (ops : List (Op Ctx)) :
    FiEpoll Ctx :=
  ops.foldl step ep

/-- The descriptors of the occupied slots, in slot order. -/
def occFds {Ctx : Type} (ep : FiEpoll Ctx) : List Int :=
  (ep.fds.take ep.nfds).map Pollfd.fd

/-- The cursor-validity predicate of the spec: the rotating scan cursor is
a valid index into the occupied range, or 0 when the handle is empty. -/
def cursorOk {Ctx : Type} (ep : FiEpoll Ctx) : Prop :=
  ep.index < ep.nfds ∨ (ep.nfds = 0 ∧ ep.index = 0)

instance {Ctx : Type} (ep : FiEpoll Ctx) : Decidable (cursorOk ep) := by
  unfold cursorOk; infer_instance

def Op.isDel {Ctx : Type} : Op Ctx → Bool
  | .del _ => true
  | _ => false

/-- A concrete handle holding descriptors 10, 11, 12 with contexts
0, 1, 2, used to instantiate the Deregister theorems. -/
def ep3demo : FiEpoll Nat :=
  run (fi_epoll_create Nat) [.add 10 0 true, .add 11 1 true, .add 12 2 true]

/-- The handle after 64 registrations (descriptors 0..63, context = the
descriptor value): exactly at capacity. -/
def ep64full : FiEpoll Nat :=
  run (fi_epoll_create Nat) ((List.range 64).map (fun k => Op.add (Int.ofNat k) k true))

/-- The caller obligation on one operation: a Register call's descriptor
must be absent from the occupied slots; Deregister and Wait carry no
obligation. -/
def opFresh {Ctx : Type} (ep : FiEpoll Ctx) : Op Ctx → Prop
  | .add fd _ _ => fd ∉ occFds ep
  | _ => True

/-- The caller obligation over a whole operation sequence, each Register
judged against the handle state at its own call. -/
def freshOps {Ctx : Type} [Inhabited Ctx] : FiEpoll Ctx → List (Op Ctx) → Prop
  | _, [] => True
  | ep, op :: ops => opFresh ep op ∧ freshOps (step ep op) ops

/-- Structural well-formedness of a handle: both arrays have exactly the
allocated capacity and the occupied count fits. -/
def WFh {Ctx : Type} (ep : FiEpoll Ctx) : Prop :=
  ep.fds.length = ep.size ∧ ep.context.length = ep.size ∧ ep.nfds ≤ ep.size

/-! ## Helper lemmas -/

theorem scanIdx_some (p : Nat → Bool) :
    ∀ n lo i, scanIdx p lo n = some i →
      lo ≤ i ∧ i < lo + n ∧ p i = true ∧ ∀ j, lo ≤ j → j < i → p j = false := by
  intro n
  induction n with
  | zero => intro lo i h; simp [scanIdx] at h
  | succ n ih =>
    intro lo i h
    by_cases hp : p lo
    · simp [scanIdx, hp] at h
      subst h
      exact ⟨Nat.le_refl _, by omega, hp, fun j h1 h2 => absurd h2 (by omega)⟩
    · simp [scanIdx, hp] at h
      obtain ⟨h1, h2, h3, h4⟩ := ih (lo + 1) i h
      refine ⟨by omega, by omega, h3, fun j hj1 hj2 => ?_⟩
      rcases Nat.eq_or_lt_of_le hj1 with heq | hlt
      · subst heq; exact Bool.not_eq_true _ ▸ (by simpa using hp)
      · exact h4 j hlt hj2

theorem scanIdx_none (p : Nat → Bool) :
    ∀ n lo, scanIdx p lo n = none → ∀ j, lo ≤ j → j < lo + n → p j = false := by
  intro n
  induction n with
  | zero => intro lo _ j h1 h2; omega
  | succ n ih =>
    intro lo h j h1 h2
    by_cases hp : p lo
    · simp [scanIdx, hp] at h
    · simp [scanIdx, hp] at h
      rcases Nat.eq_or_lt_of_le h1 with heq | hlt
      · subst heq; simpa using hp
      · exact ih (lo + 1) h j hlt (by omega)

theorem scanIdx_exists_of_mem (p : Nat → Bool) (n lo i : Nat)
    (h1 : lo ≤ i) (h2 : i < lo + n) (h3 : p i = true) :
    ∃ k, scanIdx p lo n = some k := by
  cases hs : scanIdx p lo n with
  | some k => exact ⟨k, rfl⟩
  | none => exact absurd h3 (by simp [scanIdx_none p n lo hs i h1 h2])

theorem getD_set_self {α : Type} (l : List α) (i : Nat) (v d : α)
    (h : i < l.length) : (l.set i v).getD i d = v := by
  rw [List.getD_eq_getElem?_getD, List.getElem?_set_self h]; rfl

theorem getD_set_ne {α : Type} (l : List α) (i j : Nat) (v d : α)
    (h : i ≠ j) : (l.set i v).getD j d = l.getD j d := by
  rw [List.getD_eq_getElem?_getD, List.getElem?_set_ne h,
    ← List.getD_eq_getElem?_getD]

theorem getD_append_left {α : Type} (l1 l2 : List α) (j : Nat) (d : α)
    (h : j < l1.length) : (l1 ++ l2).getD j d = l1.getD j d := by
  rw [List.getD_eq_getElem?_getD, List.getElem?_append_left h,
    ← List.getD_eq_getElem?_getD]

theorem headD_eq_getD (r : List Nat) : r.headD 0 = r.getD 0 0 := by
  cases r <;> rfl

theorem tail_getD (r : List Nat) (i : Nat) : r.tail.getD i 0 = r.getD (i + 1) 0 := by
  cases r <;> rfl

theorem pollWrite_length : ∀ (fds : List Pollfd) (n : Nat) (r : List Nat),
    (pollWrite n fds r).length = fds.length := by
  intro fds
  induction fds with
  | nil => intro n r; cases n <;> rfl
  | cons p fds ih =>
    intro n r
    cases n with
    | zero => rfl
    | succ n => simp [pollWrite, ih]

theorem pollWrite_getD : ∀ (fds : List Pollfd) (n : Nat) (r : List Nat) (i : Nat),
    (pollWrite n fds r).getD i zeroPollfd =
      if i < n ∧ i < fds.length then
        { fds.getD i zeroPollfd with revents := r.getD i 0 }
      else fds.getD i zeroPollfd := by
  intro fds
  induction fds with
  | nil =>
    intro n r i
    cases n <;> simp [pollWrite]
  | cons p fds ih =>
    intro n r i
    cases n with
    | zero => simp [pollWrite]
    | succ n =>
      cases i with
      | zero =>
        simp only [pollWrite, List.getD_cons_zero, List.length_cons]
        rw [if_pos ⟨Nat.succ_pos n, Nat.succ_pos fds.length⟩, headD_eq_getD]
      | succ i =>
        simp only [pollWrite, List.getD_cons_succ, List.length_cons]
        rw [ih n r.tail i]
        simp only [tail_getD]
        by_cases hif : i < n ∧ i < fds.length
        · rw [if_pos hif, if_pos (by omega : i + 1 < n + 1 ∧ i + 1 < fds.length + 1)]
        · rw [if_neg hif, if_neg (by omega : ¬(i + 1 < n + 1 ∧ i + 1 < fds.length + 1))]

theorem pollWrite_map_fd : ∀ (fds : List Pollfd) (n : Nat) (r : List Nat),
    (pollWrite n fds r).map Pollfd.fd = fds.map Pollfd.fd := by
  intro fds
  induction fds with
  | nil => intro n r; cases n <;> rfl
  | cons p fds ih =>
    intro n r
    cases n with
    | zero => rfl
    | succ n => simp [pollWrite, ih]

theorem pollWrite_fd (fds : List Pollfd) (n : Nat) (r : List Nat) (i : Nat) :
    ((pollWrite n fds r).getD i zeroPollfd).fd = (fds.getD i zeroPollfd).fd := by
  rw [pollWrite_getD]
  by_cases h : i < n ∧ i < fds.length
  · rw [if_pos h]
  · rw [if_neg h]

theorem pollWrite_revents (fds : List Pollfd) (n : Nat) (r : List Nat) (i : Nat)
    (h1 : i < n) (h2 : i < fds.length) :
    ((pollWrite n fds r).getD i zeroPollfd).revents = r.getD i 0 := by
  rw [pollWrite_getD, if_pos ⟨h1, h2⟩]

/-- C2: each of the four direction predicates follows the three-way
default-resolution cascade (base transfer class absent ⇒ false; own
directional flag present ⇒ true; otherwise opposite flag present ⇒ false;
otherwise ⇒ true), for every capability mask; and the concrete truth table
holds: {TAGGED, SEND} gives send = true and recv = false, {TAGGED} alone
gives send = recv = true, {RMA, REMOTE_WRITE} gives initiate = false and
target = true, and a mask with no transfer class bit gives all four false
regardless of directional bits. -/
theorem c2_capability_direction_resolver :
    (∀ (m t r a s rv w rd rw rr : Bool),
      fi_send_allowed ⟨m, t, r, a, s, rv, w, rd, rw, rr⟩ = resolveSpec (m || t) s rv ∧
      fi_recv_allowed ⟨m, t, r, a, s, rv, w, rd, rw, rr⟩ = resolveSpec (m || t) rv s ∧
      fi_rma_initiate_allowed ⟨m, t, r, a, s, rv, w, rd, rw, rr⟩ =
        resolveSpec (r || a) (w || rd) (rw || rr) ∧
      fi_rma_target_allowed ⟨m, t, r, a, s, rv, w, rd, rw, rr⟩ =
        resolveSpec (r || a) (rw || rr) (w || rd)) ∧
    (fi_send_allowed { emptyCaps with tagged := true, send := true } = true ∧
     fi_recv_allowed { emptyCaps with tagged := true, send := true } = false) ∧
    (fi_send_allowed { emptyCaps with tagged := true } = true ∧
     fi_recv_allowed { emptyCaps with tagged := true } = true) ∧
    (fi_rma_initiate_allowed { emptyCaps with rma := true, remote_write := true } = false ∧
     fi_rma_target_allowed { emptyCaps with rma := true, remote_write := true } = true) ∧
    (∀ (s rv w rd rw rr : Bool),
      fi_send_allowed ⟨false, false, false, false, s, rv, w, rd, rw, rr⟩ = false ∧
      fi_recv_allowed ⟨false, false, false, false, s, rv, w, rd, rw, rr⟩ = false ∧
      fi_rma_initiate_allowed ⟨false, false, false, false, s, rv, w, rd, rw, rr⟩ = false ∧
      fi_rma_target_allowed ⟨false, false, false, false, s, rv, w, rd, rw, rr⟩ = false) := by
  decide

/-- C1 (evidence of the code bug): a handle with descriptors 10 and 11
registered (contexts 0 and 1), both persistently ready (each poll returns 2
and reports both slots ready): the first Wait returns context 0 and leaves
the cursor at slot 0 — the very slot just returned, not past it — so the
second Wait returns context 0 again.  Two consecutive Wait calls do not
return each of the two contexts once. -/
theorem c1_wait_no_rotation_when_all_ready :
    (fi_epoll_wait (run (fi_epoll_create Nat) [.add 10 0 true, .add 11 1 true])
        ⟨2, [1, 1]⟩).1 = some 0 ∧
    ((fi_epoll_wait (run (fi_epoll_create Nat) [.add 10 0 true, .add 11 1 true])
        ⟨2, [1, 1]⟩).2.index = 0) ∧
    (fi_epoll_wait
      (fi_epoll_wait (run (fi_epoll_create Nat) [.add 10 0 true, .add 11 1 true])
        ⟨2, [1, 1]⟩).2 ⟨2, [1, 1]⟩).1 = some 0 := by
  refine ⟨?_, ?_, ?_⟩ <;> decide

/-- C4: on a handle whose occupied count equals its capacity, Register with
a failing growth allocation returns OutOfMemory and leaves the handle
completely unchanged. -/
theorem c4_register_alloc_failure_atomic {Ctx : Type} [Inhabited Ctx]
    (ep : FiEpoll Ctx) (fd : Int) (ctx : Ctx) (hfull : ep.nfds = ep.size) :
    fi_epoll_add ep fd ctx false = .error .ENOMEM ∧
    step ep (.add fd ctx false) = ep := by
  constructor
  · simp [fi_epoll_add, hfull]
  · simp [step, fi_epoll_add, hfull]

/-- C4 witness: the freshly created handle is at capacity (0 of 0), and a
failing Register leaves it unchanged. -/
theorem c4_witness :
    fi_epoll_add (fi_epoll_create Nat) 7 3 false = .error .ENOMEM ∧
    step (fi_epoll_create Nat) (.add 7 3 false) = fi_epoll_create Nat :=
  c4_register_alloc_failure_atomic (fi_epoll_create Nat) 7 3 rfl

/-- C7: whenever the underlying poll reports zero ready entries or an error
(a nonpositive return), Wait returns the no-event result `none`; the error
case is not distinguished from the timeout case.  On an empty handle with
timeout 0 the poll primitive returns 0, so Wait returns no event. -/
theorem c7_wait_collapses_poll_errors {Ctx : Type} [Inhabited Ctx]
    (ep : FiEpoll Ctx) (pr : PollResult) (h : pr.ret ≤ 0) :
    (fi_epoll_wait ep pr).1 = none ∧
    (fi_epoll_wait (fi_epoll_create Ctx) ⟨0, []⟩).1 = none := by
  constructor
  · simp [fi_epoll_wait, h]
  · rfl

/-- C7 witness: on a handle with two ready descriptors, a poll reporting an
error (return -1) yields the same no-event result as a timeout. -/
theorem c7_witness :
    (fi_epoll_wait (run (fi_epoll_create Nat) [.add 10 0 true, .add 11 1 true])
        ⟨-1, [1, 1]⟩).1 = none ∧
    (fi_epoll_wait (fi_epoll_create Nat) ⟨0, []⟩).1 = none :=
  c7_wait_collapses_poll_errors
    (run (fi_epoll_create Nat) [.add 10 0 true, .add 11 1 true])
    ⟨-1, [1, 1]⟩ (by decide)

/-- C3 counterexample: starting from a fresh handle, the sequence
Register(10, ctx 0), Register(11, ctx 1), Wait (poll finds slot 1 ready),
Deregister(10) leaves the cursor at 1 with a single occupied slot: the
cursor is neither a valid index into the occupied range nor the
empty-handle 0. -/
theorem c3_counterexample :
    ((run (fi_epoll_create Nat)
        [.add 10 0 true, .add 11 1 true, .wait ⟨1, [0, 1]⟩, .del 10]).nfds = 1) ∧
    ((run (fi_epoll_create Nat)
        [.add 10 0 true, .add 11 1 true, .wait ⟨1, [0, 1]⟩, .del 10]).index = 1) ∧
    ¬ cursorOk (run (fi_epoll_create Nat)
        [.add 10 0 true, .add 11 1 true, .wait ⟨1, [0, 1]⟩, .del 10]) := by
  refine ⟨?_, ?_, ?_⟩ <;> decide

/-- Frame facts about `fi_epoll_wait`: it never changes capacity, occupied
count or the context table, and the only change to the descriptor table is
the `revents` written by the poll oracle. -/
theorem fi_epoll_wait_frame {Ctx : Type} [Inhabited Ctx] (ep : FiEpoll Ctx)
    (pr : PollResult) :
    (fi_epoll_wait ep pr).2.size = ep.size ∧
    (fi_epoll_wait ep pr).2.nfds = ep.nfds ∧
    (fi_epoll_wait ep pr).2.context = ep.context ∧
    (fi_epoll_wait ep pr).2.fds = pollWrite ep.nfds ep.fds pr.revents := by
  unfold fi_epoll_wait
  simp only
  split
  · simp
  · split
    · simp
    · split <;> simp

/-- `fi_epoll_wait` leaves the cursor alone or moves it to a slot below the
occupied count or below its old value. -/
theorem fi_epoll_wait_index {Ctx : Type} [Inhabited Ctx] (ep : FiEpoll Ctx)
    (pr : PollResult) :
    (fi_epoll_wait ep pr).2.index = ep.index ∨
    (fi_epoll_wait ep pr).2.index < ep.nfds ∨
    (fi_epoll_wait ep pr).2.index < ep.index := by
  unfold fi_epoll_wait
  simp only
  split
  · left; rfl
  · split
    · rename_i i h1
      obtain ⟨ha, hb, _, _⟩ := scanIdx_some _ _ _ _ h1
      simp only
      omega
    · split
      · rename_i i h2
        obtain ⟨ha, hb, _, _⟩ := scanIdx_some _ _ _ _ h2
        simp only
        omega
      · left; rfl

/-- Shape of a Register step: either it succeeds, incrementing the occupied
count and leaving the cursor alone, or it fails leaving the handle as-is. -/
theorem step_add_shape {Ctx : Type} [Inhabited Ctx] (ep : FiEpoll Ctx)
    (fd : Int) (ctx : Ctx) (ok : Bool) :
    ((step ep (.add fd ctx ok)).nfds = ep.nfds + 1 ∧
     (step ep (.add fd ctx ok)).index = ep.index) ∨
    step ep (.add fd ctx ok) = ep := by
  by_cases hfull : ep.nfds = ep.size
  · by_cases hb : ok
    · left; constructor <;> simp [step, fi_epoll_add, hfull, hb, epollInsert]
    · right; simp [step, fi_epoll_add, hfull, hb]
  · left; constructor <;> simp [step, fi_epoll_add, hfull, epollInsert]

/-- Register and Wait steps preserve cursor validity. -/
theorem cursorOk_step {Ctx : Type} [Inhabited Ctx] (ep : FiEpoll Ctx)
    (op : Op Ctx) (hok : cursorOk ep) (hnd : op.isDel = false) :
    cursorOk (step ep op) := by
  cases op with
  | add fd ctx ok =>
    rcases step_add_shape ep fd ctx ok with ⟨h1, h2⟩ | he
    · unfold cursorOk at hok ⊢; omega
    · rw [he]; exact hok
  | del fd => simp [Op.isDel] at hnd
  | wait pr =>
    have hf := fi_epoll_wait_frame ep pr
    have hi := fi_epoll_wait_index ep pr
    unfold cursorOk at hok ⊢
    show (fi_epoll_wait ep pr).2.index < (fi_epoll_wait ep pr).2.nfds ∨
      ((fi_epoll_wait ep pr).2.nfds = 0 ∧ (fi_epoll_wait ep pr).2.index = 0)
    rw [hf.2.1]
    omega

theorem cursorOk_run {Ctx : Type} [Inhabited Ctx] :
    ∀ (ops : List (Op Ctx)) (ep : FiEpoll Ctx), cursorOk ep →
      (∀ op ∈ ops, op.isDel = false) → cursorOk (run ep ops) := by
  intro ops
  induction ops with
  | nil => intro ep h _; exact h
  | cons op ops ih =>
    intro ep h hall
    exact ih (step ep op) (cursorOk_step ep op h (hall op (by simp)))
      (fun o ho => hall o (by simp [ho]))

/-- C3 (amended): for every sequence of Register and Wait operations
starting from a fresh handle, the rotating scan cursor is a valid index
into the occupied range, or 0 when the handle is empty.  (Deregister is
excluded: it can leave the cursor at or beyond the occupied count, see the
counterexample.) -/
theorem c3_cursor_valid_without_deregister (ops : List (Op Nat))
    (h : ∀ op ∈ ops, op.isDel = false) :
    cursorOk (run (fi_epoll_create Nat) ops) :=
  cursorOk_run ops (fi_epoll_create Nat) (Or.inr ⟨rfl, rfl⟩) h

/-- C3 witness: a concrete Register/Register/Wait sequence keeps the
cursor valid. -/
theorem c3_witness :
    cursorOk (run (fi_epoll_create Nat)
      [.add 10 0 true, .add 11 1 true, .wait ⟨1, [0, 1]⟩]) :=
  c3_cursor_valid_without_deregister
    [.add 10 0 true, .add 11 1 true, .wait ⟨1, [0, 1]⟩] (by decide)

/-- When `i` is the first index satisfying `p` below `n`, the scan finds
exactly `i`. -/
theorem scanIdx_eq_of_first (p : Nat → Bool) (n i : Nat) (hi : i < n)
    (hp : p i = true) (hfirst : ∀ j, j < i → p j = false) :
    scanIdx p 0 n = some i := by
  obtain ⟨k, hk⟩ := scanIdx_exists_of_mem p n 0 i (Nat.zero_le i) (by omega) hp
  obtain ⟨h1, h2, h3, h4⟩ := scanIdx_some p n 0 k hk
  have hki : k = i := by
    rcases Nat.lt_trichotomy k i with h | h | h
    · rw [hfirst k h] at h3; exact absurd h3 (by simp)
    · exact h
    · rw [h4 i (Nat.zero_le i) h] at hp; exact absurd hp (by simp)
  rw [hk, hki]

/-- The state `fi_epoll_del` produces when the scan finds slot `i`. -/
theorem fi_epoll_del_found {Ctx : Type} [Inhabited Ctx] (ep : FiEpoll Ctx)
    (fd : Int) (i : Nat)
    (h : scanIdx (fun j => fdAt ep j == fd) 0 ep.nfds = some i) :
    fi_epoll_del ep fd = .ok { ep with
      fds := ep.fds.set i
        { ep.fds.getD i zeroPollfd with fd := fdAt ep (ep.nfds - 1) },
      context := ep.context.set i (ep.context.getD (ep.nfds - 1) default),
      nfds := ep.nfds - 1 } := by
  unfold fi_epoll_del
  rw [h]

/-- Membership in the occupied-descriptor list, positionally. -/
theorem mem_occFds {Ctx : Type} (ep : FiEpoll Ctx) (fd : Int) :
    fd ∈ occFds ep ↔ ∃ j, j < ep.nfds ∧ j < ep.fds.length ∧ fdAt ep j = fd := by
  unfold occFds fdAt
  rw [List.mem_map]
  constructor
  · rintro ⟨p, hp, hfd⟩
    obtain ⟨j, hj, hget⟩ := List.mem_iff_getElem.mp hp
    rw [List.length_take] at hj
    have hj1 : j < ep.nfds := lt_of_lt_of_le hj inf_le_left
    have hj2 : j < ep.fds.length := lt_of_lt_of_le hj inf_le_right
    refine ⟨j, hj1, hj2, ?_⟩
    rw [List.getD_eq_getElem _ _ hj2, ← List.getElem_take ep.fds, hget, hfd]
  · rintro ⟨j, hj1, hj2, hfd⟩
    refine ⟨ep.fds[j], ?_, ?_⟩
    · exact List.mem_iff_getElem.mpr
        ⟨j, by rw [List.length_take]; omega, List.getElem_take ep.fds⟩
    · rw [← List.getD_eq_getElem ep.fds zeroPollfd hj2]; exact hfd

/-- `fi_epoll_del` fails with `-FI_EINVAL` exactly when no occupied slot
holds the descriptor. -/
theorem fi_epoll_del_eq_error_iff {Ctx : Type} [Inhabited Ctx]
    (ep : FiEpoll Ctx) (fd : Int) (hWF : ep.nfds ≤ ep.fds.length) :
    fi_epoll_del ep fd = .error .EINVAL ↔ fd ∉ occFds ep := by
  unfold fi_epoll_del
  cases hs : scanIdx (fun j => fdAt ep j == fd) 0 ep.nfds with
  | some i =>
    obtain ⟨_, h2, h3, _⟩ := scanIdx_some _ _ _ _ hs
    simp only []
    constructor
    · intro h; exact absurd h (by simp)
    · intro h
      exact absurd ((mem_occFds ep fd).mpr
        ⟨i, by omega, by omega, by simpa [beq_iff_eq] using h3⟩) h
  | none =>
    simp only []
    constructor
    · intro _ hmem
      obtain ⟨j, hj1, _, hj3⟩ := (mem_occFds ep fd).mp hmem
      have := scanIdx_none _ _ _ hs j (Nat.zero_le j) (by omega)
      rw [hj3] at this
      simp at this
    · intro _; trivial

/-- C5: Deregister removes the first occupied slot holding the descriptor
by swap-with-last (the old last slot's descriptor and context move to slot
`i` when `i` was not last) and shrinks the occupied count by one; when no
occupied slot holds the descriptor it fails with InvalidArgument and
leaves the handle unchanged; a descriptor occupying exactly one slot can
be deregistered exactly once — the second attempt fails. -/
theorem c5_deregister_contract {Ctx : Type} [Inhabited Ctx] (ep : FiEpoll Ctx)
    (fd : Int) (hWF1 : ep.nfds ≤ ep.fds.length)
    (hWF2 : ep.nfds ≤ ep.context.length) :
    (fd ∉ occFds ep →
      fi_epoll_del ep fd = .error .EINVAL ∧ step ep (.del fd) = ep) ∧
    (∀ i, i < ep.nfds → fdAt ep i = fd → (∀ j, j < i → fdAt ep j ≠ fd) →
      ∃ ep', fi_epoll_del ep fd = .ok ep' ∧
        ep'.nfds = ep.nfds - 1 ∧
        (i < ep.nfds - 1 →
          fdAt ep' i = fdAt ep (ep.nfds - 1) ∧
          ep'.context.getD i default = ep.context.getD (ep.nfds - 1) default) ∧
        ((∀ j, j < ep.nfds → j ≠ i → fdAt ep j ≠ fd) →
          fi_epoll_del ep' fd = .error .EINVAL)) := by
  constructor
  · intro hnm
    have herr : fi_epoll_del ep fd = .error .EINVAL :=
      (fi_epoll_del_eq_error_iff ep fd hWF1).mpr hnm
    exact ⟨herr, by simp [step, herr]⟩
  · intro i hi hfd hfirst
    have hscan : scanIdx (fun j => fdAt ep j == fd) 0 ep.nfds = some i :=
      scanIdx_eq_of_first _ _ _ hi (by simp [beq_iff_eq, hfd])
        (fun j hj => by simp [beq_iff_eq]; exact hfirst j hj)
    refine ⟨_, fi_epoll_del_found ep fd i hscan, rfl, ?_, ?_⟩
    · intro hnl
      constructor
      · show ((ep.fds.set i _).getD i zeroPollfd).fd = _
        rw [getD_set_self _ _ _ _ (by omega)]
      · show (ep.context.set i _).getD i default = _
        rw [getD_set_self _ _ _ _ (by omega)]
    · intro huniq
      set ep' : FiEpoll Ctx := { ep with
        fds := ep.fds.set i
          { ep.fds.getD i zeroPollfd with fd := fdAt ep (ep.nfds - 1) },
        context := ep.context.set i (ep.context.getD (ep.nfds - 1) default),
        nfds := ep.nfds - 1 } with hep'
      have hlen : ep'.fds.length = ep.fds.length := by
        simp [hep', List.length_set]
      have hnf : ep'.nfds = ep.nfds - 1 := rfl
      apply (fi_epoll_del_eq_error_iff ep' fd (by omega)).mpr
      intro hmem
      obtain ⟨j, hj1, hj2, hj3⟩ := (mem_occFds ep' fd).mp hmem
      have hj1' : j < ep.nfds - 1 := hj1
      by_cases hji : j = i
      · subst hji
        have : fdAt ep' j = fdAt ep (ep.nfds - 1) := by
          show ((ep.fds.set j _).getD j zeroPollfd).fd = _
          rw [getD_set_self _ _ _ _ (by omega)]
        rw [this] at hj3
        exact huniq (ep.nfds - 1) (by omega) (by omega) hj3
      · have : fdAt ep' j = fdAt ep j := by
          show ((ep.fds.set i _).getD j zeroPollfd).fd = _
          rw [getD_set_ne _ _ _ _ _ (fun h => hji h.symm)]
          rfl
        rw [this] at hj3
        exact huniq j (by omega) hji hj3

/-- C5 witness: the Deregister contract instantiated on the concrete
three-descriptor handle with descriptor 10. -/
theorem c5_witness :
    ((10 : Int) ∉ occFds ep3demo →
      fi_epoll_del ep3demo 10 = .error .EINVAL ∧
      step ep3demo (.del 10) = ep3demo) ∧
    (∀ i, i < ep3demo.nfds → fdAt ep3demo i = 10 →
      (∀ j, j < i → fdAt ep3demo j ≠ 10) →
      ∃ ep', fi_epoll_del ep3demo 10 = .ok ep' ∧
        ep'.nfds = ep3demo.nfds - 1 ∧
        (i < ep3demo.nfds - 1 →
          fdAt ep' i = fdAt ep3demo (ep3demo.nfds - 1) ∧
          ep'.context.getD i default =
            ep3demo.context.getD (ep3demo.nfds - 1) default) ∧
        ((∀ j, j < ep3demo.nfds → j ≠ i → fdAt ep3demo j ≠ 10) →
          fi_epoll_del ep' 10 = .error .EINVAL)) :=
  c5_deregister_contract ep3demo 10 (by decide) (by decide)

/-- C9: when Deregister removes slot `i` that is not the last occupied
slot, only the descriptor field and the context are copied from the last
slot: slot `i` keeps its previous interest mask (`events`) and previous
observed readiness (`revents`), every other slot is untouched, and so the
last slot's observed readiness is dropped rather than moved with its
entry. -/
theorem c9_partial_swap_on_removal {Ctx : Type} [Inhabited Ctx]
    (ep : FiEpoll Ctx) (fd : Int) (i : Nat)
    (hWF1 : ep.nfds ≤ ep.fds.length) (hWF2 : ep.nfds ≤ ep.context.length)
    (hi : i < ep.nfds) (hfd : fdAt ep i = fd)
    (hfirst : ∀ j, j < i → fdAt ep j ≠ fd) (_hnl : i < ep.nfds - 1) :
    ∃ ep', fi_epoll_del ep fd = .ok ep' ∧
      (ep'.fds.getD i zeroPollfd).events = (ep.fds.getD i zeroPollfd).events ∧
      (ep'.fds.getD i zeroPollfd).revents = (ep.fds.getD i zeroPollfd).revents ∧
      (ep'.fds.getD i zeroPollfd).fd = fdAt ep (ep.nfds - 1) ∧
      ep'.context.getD i default = ep.context.getD (ep.nfds - 1) default ∧
      (∀ j, j ≠ i → ep'.fds.getD j zeroPollfd = ep.fds.getD j zeroPollfd) ∧
      (∀ j, j ≠ i → ep'.context.getD j default = ep.context.getD j default) := by
  have hscan : scanIdx (fun j => fdAt ep j == fd) 0 ep.nfds = some i :=
    scanIdx_eq_of_first _ _ _ hi (by simp [beq_iff_eq, hfd])
      (fun j hj => by simp [beq_iff_eq]; exact hfirst j hj)
  refine ⟨_, fi_epoll_del_found ep fd i hscan, ?_, ?_, ?_, ?_, ?_, ?_⟩
  · show ((ep.fds.set i _).getD i zeroPollfd).events = _
    rw [getD_set_self _ _ _ _ (by omega)]
  · show ((ep.fds.set i _).getD i zeroPollfd).revents = _
    rw [getD_set_self _ _ _ _ (by omega)]
  · show ((ep.fds.set i _).getD i zeroPollfd).fd = _
    rw [getD_set_self _ _ _ _ (by omega)]
  · show (ep.context.set i _).getD i default = _
    rw [getD_set_self _ _ _ _ (by omega)]
  · intro j hj
    show (ep.fds.set i _).getD j zeroPollfd = _
    rw [getD_set_ne _ _ _ _ _ (fun h => hj h.symm)]
  · intro j hj
    show (ep.context.set i _).getD j default = _
    rw [getD_set_ne _ _ _ _ _ (fun h => hj h.symm)]

/-- C9 witness: deregistering descriptor 10 (slot 0, not last) from the
three-descriptor handle keeps slot 0's interest and readiness fields,
moves descriptor 12 and context 2 into slot 0, and touches no other
slot. -/
theorem c9_witness :
    ∃ ep', fi_epoll_del ep3demo 10 = .ok ep' ∧
      (ep'.fds.getD 0 zeroPollfd).events = (ep3demo.fds.getD 0 zeroPollfd).events ∧
      (ep'.fds.getD 0 zeroPollfd).revents = (ep3demo.fds.getD 0 zeroPollfd).revents ∧
      (ep'.fds.getD 0 zeroPollfd).fd = fdAt ep3demo (ep3demo.nfds - 1) ∧
      ep'.context.getD 0 default = ep3demo.context.getD (ep3demo.nfds - 1) default ∧
      (∀ j, j ≠ 0 → ep'.fds.getD j zeroPollfd = ep3demo.fds.getD j zeroPollfd) ∧
      (∀ j, j ≠ 0 → ep'.context.getD j default = ep3demo.context.getD j default) :=
  c9_partial_swap_on_removal ep3demo 10 0 (by decide) (by decide) (by decide)
    (by decide) (fun j hj => absurd hj (Nat.not_lt_zero j)) (by decide)

/-- C6: Register on a full handle (occupied count = capacity) with a
succeeding allocation grows the capacity by exactly 64 slots, preserves
every previously stored (descriptor, interest, readiness) entry and
context at its original index, and then inserts the new entry at the next
slot. -/
theorem c6_growth_preserves_associations {Ctx : Type} [Inhabited Ctx]
    (ep : FiEpoll Ctx) (fd : Int) (ctx : Ctx)
    (hWF1 : ep.fds.length = ep.size) (hWF2 : ep.context.length = ep.size)
    (hfull : ep.nfds = ep.size) :
    ∃ ep', fi_epoll_add ep fd ctx true = .ok ep' ∧
      ep'.size = ep.size + 64 ∧
      ep'.nfds = ep.nfds + 1 ∧
      (∀ j, j < ep.nfds →
        ep'.fds.getD j zeroPollfd = ep.fds.getD j zeroPollfd ∧
        ep'.context.getD j default = ep.context.getD j default) ∧
      fdAt ep' ep.nfds = fd ∧
      (ep'.fds.getD ep.nfds zeroPollfd).events = POLLIN ∧
      ep'.context.getD ep.nfds default = ctx := by
  have hadd : fi_epoll_add ep fd ctx true = .ok (epollInsert
      { ep with size := ep.size + 64,
                fds := ep.fds ++ List.replicate 64 zeroPollfd,
                context := ep.context ++ List.replicate 64 default } fd ctx) := by
    simp [fi_epoll_add, hfull]
  refine ⟨_, hadd, rfl, rfl, ?_, ?_, ?_, ?_⟩
  · intro j hj
    have hj1 : j < ep.fds.length := by omega
    have hj2 : j < ep.context.length := by omega
    constructor
    · show ((ep.fds ++ List.replicate 64 zeroPollfd).set ep.nfds _).getD j zeroPollfd = _
      rw [getD_set_ne _ _ _ _ _ (by omega), getD_append_left _ _ _ _ hj1]
    · show ((ep.context ++ List.replicate 64 default).set ep.nfds _).getD j default = _
      rw [getD_set_ne _ _ _ _ _ (by omega), getD_append_left _ _ _ _ hj2]
  · show (((ep.fds ++ List.replicate 64 zeroPollfd).set ep.nfds _).getD ep.nfds zeroPollfd).fd = fd
    rw [getD_set_self _ _ _ _ (by simp [List.length_append, List.length_replicate]; omega)]
  · show (((ep.fds ++ List.replicate 64 zeroPollfd).set ep.nfds _).getD ep.nfds zeroPollfd).events = POLLIN
    rw [getD_set_self _ _ _ _ (by simp [List.length_append, List.length_replicate]; omega)]
  · show ((ep.context ++ List.replicate 64 default).set ep.nfds _).getD ep.nfds default = ctx
    rw [getD_set_self _ _ _ _ (by simp [List.length_append, List.length_replicate]; omega)]

/-- C6 witness: the 65th registration on the full 64-slot handle grows the
capacity to 128 and preserves all 64 existing (descriptor, context)
associations. -/
theorem c6_witness :
    ∃ ep', fi_epoll_add ep64full 1000 1000 true = .ok ep' ∧
      ep'.size = ep64full.size + 64 ∧
      ep'.nfds = ep64full.nfds + 1 ∧
      (∀ j, j < ep64full.nfds →
        ep'.fds.getD j zeroPollfd = ep64full.fds.getD j zeroPollfd ∧
        ep'.context.getD j default = ep64full.context.getD j default) ∧
      fdAt ep' ep64full.nfds = 1000 ∧
      (ep'.fds.getD ep64full.nfds zeroPollfd).events = POLLIN ∧
      ep'.context.getD ep64full.nfds default = 1000 :=
  c6_growth_preserves_associations ep64full 1000 1000 (by decide) (by decide)
    (by decide)

/-- C10: when the cursor is at most the occupied count at entry to Wait,
the two scan passes `[cursor, count)` and `[0, cursor)` together visit
every occupied slot: whenever the poll reports a positive count and at
least one occupied slot has nonzero observed readiness, Wait returns the
context of some occupied ready slot, so the final no-event return placed
after the scan is not taken. -/
theorem c10_post_scan_return_unreachable {Ctx : Type} [Inhabited Ctx]
    (ep : FiEpoll Ctx) (pr : PollResult)
    (hWF : ep.nfds ≤ ep.fds.length) (hidx : ep.index ≤ ep.nfds)
    (hret : 0 < pr.ret) (i : Nat) (hi : i < ep.nfds)
    (hready : pr.revents.getD i 0 ≠ 0) :
    ∃ j, j < ep.nfds ∧ pr.revents.getD j 0 ≠ 0 ∧
      (fi_epoll_wait ep pr).1 = some (ep.context.getD j default) := by
  have hrev : ∀ k, k < ep.nfds →
      ((pollWrite ep.nfds ep.fds pr.revents).getD k zeroPollfd).revents =
        pr.revents.getD k 0 :=
    fun k hk => pollWrite_revents ep.fds ep.nfds pr.revents k hk (by omega)
  have hpi : (((pollWrite ep.nfds ep.fds pr.revents).getD i zeroPollfd).revents != 0)
      = true := by
    rw [hrev i hi]
    simpa using hready
  unfold fi_epoll_wait
  simp only []
  rw [if_neg (by omega)]
  cases h1 : scanIdx (fun k =>
      ((pollWrite ep.nfds ep.fds pr.revents).getD k zeroPollfd).revents != 0)
      ep.index (ep.nfds - ep.index) with
  | some j =>
    obtain ⟨ha, hb, hp, _⟩ := scanIdx_some _ _ _ _ h1
    refine ⟨j, by omega, ?_, rfl⟩
    rw [hrev j (by omega)] at hp
    simpa using hp
  | none =>
    have hilt : i < ep.index := by
      by_contra hge
      have := scanIdx_none _ _ _ h1 i (by omega) (by omega)
      rw [hpi] at this
      exact absurd this (by simp)
    obtain ⟨k, hk⟩ := scanIdx_exists_of_mem
      (fun k => ((pollWrite ep.nfds ep.fds pr.revents).getD k zeroPollfd).revents != 0)
      ep.index 0 i (Nat.zero_le i) (by omega) hpi
    rw [hk]
    obtain ⟨_, hkb, hkp, _⟩ := scanIdx_some _ _ _ _ hk
    refine ⟨k, by omega, ?_, rfl⟩
    rw [hrev k (by omega)] at hkp
    simpa using hkp

/-- C10 witness: on a two-descriptor handle whose cursor is 0 with slot 1
ready, Wait returns slot 1's context. -/
theorem c10_witness :
    ∃ j, j < (run (fi_epoll_create Nat) [.add 10 0 true, .add 11 1 true]).nfds ∧
      (PollResult.mk 1 [0, 1]).revents.getD j 0 ≠ 0 ∧
      (fi_epoll_wait (run (fi_epoll_create Nat) [.add 10 0 true, .add 11 1 true])
        ⟨1, [0, 1]⟩).1 =
        some ((run (fi_epoll_create Nat)
          [.add 10 0 true, .add 11 1 true]).context.getD j default) :=
  c10_post_scan_return_unreachable
    (run (fi_epoll_create Nat) [.add 10 0 true, .add 11 1 true]) ⟨1, [0, 1]⟩
    (by decide) (by decide) (by decide) 1 (by decide) (by decide)

/-- C8 counterexample: registering descriptor 5 twice on a fresh handle is
accepted and leaves descriptor 5 occupying two slots. -/
theorem c8_counterexample :
    occFds (run (fi_epoll_create Nat) [.add 5 0 true, .add 5 1 true]) = [5, 5] ∧
    ¬ (occFds (run (fi_epoll_create Nat) [.add 5 0 true, .add 5 1 true])).Nodup := by
  refine ⟨?_, ?_⟩ <;> decide

theorem nodup_set_of_not_mem {α : Type} :
    ∀ (l : List α) (i : Nat) (a : α), l.Nodup → a ∉ l → (l.set i a).Nodup := by
  intro l
  induction l with
  | nil => intro i a _ _; simp
  | cons x t ih =>
    intro i a hnd hna
    cases i with
    | zero =>
      rw [List.set_cons_zero, List.nodup_cons]
      exact ⟨fun h => hna (List.mem_cons_of_mem x h), (List.nodup_cons.mp hnd).2⟩
    | succ i =>
      rw [List.set_cons_succ, List.nodup_cons]
      refine ⟨?_, ih i a (List.nodup_cons.mp hnd).2 (fun h => hna (List.mem_cons_of_mem x h))⟩
      intro hmem
      rcases List.mem_or_eq_of_mem_set hmem with h | h
      · exact (List.nodup_cons.mp hnd).1 h
      · exact hna (h ▸ List.mem_cons_self x t)

theorem set_take_succ {α : Type} (l : List α) (n : Nat) (v : α)
    (h : n < l.length) : (l.set n v).take (n + 1) = l.take n ++ [v] := by
  rw [List.set_eq_take_append_cons_drop, if_pos h]
  have hlen : (l.take n).length = n := by rw [List.length_take]; omega
  calc (l.take n ++ v :: l.drop (n + 1)).take (n + 1)
      = (l.take n ++ v :: l.drop (n + 1)).take ((l.take n).length + 1) := by rw [hlen]
    _ = l.take n ++ (v :: l.drop (n + 1)).take 1 := List.take_append 1
    _ = l.take n ++ [v] := by simp

/-- A successful Register appends its descriptor to the occupied list and
keeps the handle well-formed; a failed one changes nothing. -/
theorem occFds_step_add {Ctx : Type} [Inhabited Ctx] (ep : FiEpoll Ctx)
    (fd : Int) (ctx : Ctx) (ok : Bool) (hWF : WFh ep) :
    (occFds (step ep (.add fd ctx ok)) = occFds ep ++ [fd] ∧
      WFh (step ep (.add fd ctx ok))) ∨
    step ep (.add fd ctx ok) = ep := by
  obtain ⟨hl1, hl2, hle⟩ := hWF
  by_cases hfull : ep.nfds = ep.size
  · by_cases hb : ok
    · left
      have hstep : step ep (.add fd ctx ok) = epollInsert
          { ep with size := ep.size + 64,
                    fds := ep.fds ++ List.replicate 64 zeroPollfd,
                    context := ep.context ++ List.replicate 64 default } fd ctx := by
        simp [step, fi_epoll_add, hfull, hb]
      rw [hstep]
      constructor
      · show (((ep.fds ++ List.replicate 64 zeroPollfd).set ep.nfds _).take
          (ep.nfds + 1)).map Pollfd.fd = _
        rw [set_take_succ _ _ _ (by simp [List.length_append, List.length_replicate]; omega),
          List.take_append_of_le_length (by omega), List.map_append]
        show (ep.fds.take ep.nfds).map Pollfd.fd ++ [fd] = _
        rfl
      · refine ⟨?_, ?_, ?_⟩ <;>
          simp [epollInsert, List.length_set, List.length_append,
            List.length_replicate, hl1, hl2] <;> omega
    · right; simp [step, fi_epoll_add, hfull, hb]
  · left
    have hstep : step ep (.add fd ctx ok) = epollInsert ep fd ctx := by
      simp [step, fi_epoll_add, hfull]
    rw [hstep]
    constructor
    · show ((ep.fds.set ep.nfds _).take (ep.nfds + 1)).map Pollfd.fd = _
      rw [set_take_succ _ _ _ (by omega), List.map_append]
      show (ep.fds.take ep.nfds).map Pollfd.fd ++ [fd] = _
      rfl
    · refine ⟨?_, ?_, ?_⟩ <;> simp [epollInsert, List.length_set, hl1, hl2] <;> omega

/-- A Deregister step preserves well-formedness and keeps the occupied
descriptors duplicate-free. -/
theorem occFds_step_del {Ctx : Type} [Inhabited Ctx] (ep : FiEpoll Ctx)
    (fd : Int) (hWF : WFh ep) (hnd : (occFds ep).Nodup) :
    (occFds (step ep (.del fd))).Nodup ∧ WFh (step ep (.del fd)) := by
  obtain ⟨hl1, hl2, hle⟩ := hWF
  cases hs : scanIdx (fun j => fdAt ep j == fd) 0 ep.nfds with
  | none =>
    have : step ep (.del fd) = ep := by simp [step, fi_epoll_del, hs]
    rw [this]
    exact ⟨hnd, hl1, hl2, hle⟩
  | some i =>
    obtain ⟨_, hi, _, _⟩ := scanIdx_some _ _ _ _ hs
    have hstep : step ep (.del fd) = { ep with
        fds := ep.fds.set i
          { ep.fds.getD i zeroPollfd with fd := fdAt ep (ep.nfds - 1) },
        context := ep.context.set i (ep.context.getD (ep.nfds - 1) default),
        nfds := ep.nfds - 1 } := by
      simp [step, fi_epoll_del, hs]
    rw [hstep]
    have hiL : i < ep.nfds := by omega
    set y : Int := fdAt ep (ep.nfds - 1) with hy
    set L : List Int := occFds ep with hL
    have hLlen : L.length = ep.nfds := by
      rw [hL]; unfold occFds; rw [List.length_map, List.length_take]; omega
    constructor
    · show ((ep.fds.set i _).take (ep.nfds - 1)).map Pollfd.fd |>.Nodup
      have hchain : ((ep.fds.set i
          { ep.fds.getD i zeroPollfd with fd := y }).take (ep.nfds - 1)).map Pollfd.fd
          = (L.take (ep.nfds - 1)).set i y := by
        rw [List.map_take, List.map_set]
        show ((ep.fds.map Pollfd.fd).set i y).take (ep.nfds - 1) = _
        rw [List.set_take, hL]
        unfold occFds
        rw [List.map_take, List.take_take]
        have hmin : (ep.nfds - 1) ⊓ ep.nfds = ep.nfds - 1 := by omega
        rw [hmin]
      rw [hchain]
      have hyL : y = L.getD (ep.nfds - 1) 0 := by
        rw [hy, hL]
        unfold occFds fdAt
        rw [List.getD_eq_getElem _ _ (by omega : ep.nfds - 1 < ep.fds.length),
          List.getD_eq_getElem _ _ (by
            rw [List.length_map, List.length_take]
            omega)]
        rw [List.getElem_map, List.getElem_take]
      apply nodup_set_of_not_mem _ _ _
        ((List.take_sublist _ _).nodup hnd)
      have hsplit : L = L.take (ep.nfds - 1) ++ L.drop (ep.nfds - 1) :=
        (List.take_append_drop _ _).symm
      have hdisj : (L.take (ep.nfds - 1)).Disjoint (L.drop (ep.nfds - 1)) := by
        have := hsplit ▸ hnd
        exact (List.nodup_append.mp this).2.2
      have hymem : y ∈ L.drop (ep.nfds - 1) := by
        have hlt : 0 < (L.drop (ep.nfds - 1)).length := by
          rw [List.length_drop]; omega
        rw [hyL, List.getD_eq_getElem _ _ (by omega : ep.nfds - 1 < L.length)]
        have h0 : L[ep.nfds - 1] = (L.drop (ep.nfds - 1)).get ⟨0, hlt⟩ := by
          rw [List.get_eq_getElem]
          simp [List.getElem_drop]
        rw [h0]
        exact List.get_mem _ 0 hlt
      exact List.disjoint_right.mp hdisj hymem
    · refine ⟨by simp [List.length_set, hl1], by simp [List.length_set, hl2], ?_⟩
      show ep.nfds - 1 ≤ ep.size
      omega

/-- A Wait step does not change the occupied descriptors and preserves
well-formedness. -/
theorem occFds_step_wait {Ctx : Type} [Inhabited Ctx] (ep : FiEpoll Ctx)
    (pr : PollResult) (hWF : WFh ep) :
    occFds (step ep (.wait pr)) = occFds ep ∧ WFh (step ep (.wait pr)) := by
  obtain ⟨hl1, hl2, hle⟩ := hWF
  have hf := fi_epoll_wait_frame ep pr
  have hstep : step ep (.wait pr) = (fi_epoll_wait ep pr).2 := rfl
  constructor
  · rw [hstep]
    unfold occFds
    rw [hf.2.1, hf.2.2.2, List.map_take, pollWrite_map_fd, ← List.map_take]
  · rw [hstep]
    refine ⟨?_, ?_, ?_⟩
    · rw [hf.2.2.2, pollWrite_length, hf.1, hl1]
    · rw [hf.2.2.1, hf.1, hl2]
    · rw [hf.2.1, hf.1]; exact hle

/-- Under the caller obligation, every reachable handle state is
well-formed with duplicate-free occupied descriptors. -/
theorem nodup_occFds_run {Ctx : Type} [Inhabited Ctx] :
    ∀ (ops : List (Op Ctx)) (ep : FiEpoll Ctx), WFh ep → (occFds ep).Nodup →
      freshOps ep ops → WFh (run ep ops) ∧ (occFds (run ep ops)).Nodup := by
  intro ops
  induction ops with
  | nil => intro ep h1 h2 _; exact ⟨h1, h2⟩
  | cons op ops ih =>
    intro ep h1 h2 hfr
    obtain ⟨hf, hrest⟩ := hfr
    have hrun : run ep (op :: ops) = run (step ep op) ops := rfl
    rw [hrun]
    cases op with
    | add fd ctx ok =>
      rcases occFds_step_add ep fd ctx ok h1 with ⟨hocc, hwf⟩ | heq
      · refine ih (step ep (.add fd ctx ok)) hwf ?_ hrest
        rw [hocc, List.nodup_append]
        refine ⟨h2, List.nodup_cons.mpr ⟨List.not_mem_nil fd, List.nodup_nil⟩, ?_⟩
        intro a ha
        simp only [List.mem_singleton]
        intro haeq
        exact hf (haeq ▸ ha)
      · rw [heq]
        rw [heq] at hrest
        exact ih ep h1 h2 hrest
    | del fd =>
      obtain ⟨hn, hw⟩ := occFds_step_del ep fd h1 h2
      exact ih (step ep (.del fd)) hw hn hrest
    | wait pr =>
      obtain ⟨he, hw⟩ := occFds_step_wait ep pr h1
      exact ih (step ep (.wait pr)) hw (he ▸ h2) hrest

/-- C8 (amended): for every sequence of Register, Deregister and Wait
operations starting from a fresh handle in which each Register call's
descriptor is absent from the occupied slots at the time of the call (the
caller-must-avoid-duplicates contract the spec states), each descriptor
value appears at most once among the occupied slots at every observable
point. -/
theorem c8_uniqueness_under_fresh_registration (ops : List (Op Nat))
    (h : freshOps (fi_epoll_create Nat) ops) :
    (occFds (run (fi_epoll_create Nat) ops)).Nodup :=
  (nodup_occFds_run ops (fi_epoll_create Nat) ⟨rfl, rfl, Nat.le_refl 0⟩
    List.nodup_nil h).2

/-- C8 witness: a concrete duplicate-free Register/Register/Deregister/Wait
sequence keeps the occupied descriptors duplicate-free. -/
theorem c8_witness :
    (occFds (run (fi_epoll_create Nat)
      [.add 5 0 true, .add 6 1 true, .del 5, .wait ⟨1, [1]⟩])).Nodup :=
  c8_uniqueness_under_fresh_registration
    [.add 5 0 true, .add 6 1 true, .del 5, .wait ⟨1, [1]⟩]
    ⟨show (5 : Int) ∉ occFds (fi_epoll_create Nat) by decide,
     show (6 : Int) ∉ occFds (step (fi_epoll_create Nat) (.add 5 0 true)) by decide,
     trivial, trivial, trivial⟩

end LibfabricCommon
